import Mathlib

/-!
Verification development for the tree-outliner core of the repository
(class Tree in src/packages/chili-occ/src/occHelps.ts, lines 275-498).

The embedding is shallow: nodes are natural-number identities, the per-node
visual elements of the view are represented by the identity of their owning
node, and the DOM structure owned by the Tree is represented by an ordered
child list per element.  Stateful methods of the Tree class become pure
functions from a TreeState to a TreeState; calls into external collaborators
(the Selection Manager, the transaction primitive, the node-graph move
operation) are returned as data.  Loops whose termination depends on runtime
pointers are given a fuel parameter; a result of none means the loop is still
running after that many iterations.

Code of the repository that is not under src (the NodeLinkedList node graph,
the TreeItem and TreeGroup element classes) is modelled from the
specification; every such definition carries a comment starting with
Modelled from the spec.
-/

/-- Node identity: reference equality of INode objects is modelled by a
natural number identity. -/
abbrev NodeId := Nat

/-- Kind of a node: container corresponds to INode.isLinkedListNode,
leaf to INode.isModelNode, and other to any INode implementor that is
neither (the branch that makes Tree.createHTMLElement throw). -/
inductive NKind where
  | container
  | leaf
  | other
deriving DecidableEq

/-- Change record delivered on the nodeLinkedListChanged topic
(NodeRecord of chili-core, as read by Tree.handleNodeLinkedChanged). -/
structure NodeRecord where
  node : NodeId
  oldParent : Option NodeId
  oldPrevious : Option NodeId
  newParent : Option NodeId
  newPrevious : Option NodeId
deriving DecidableEq

/-- State owned by one Tree instance: the keys of the nodeMap (entries),
the ordered child elements of the element of every node (vchildren), the
children of the panel element itself (panelChildren), the isExpanded flag
of every group element (expanded), the element last scrolled into view
(scrolledTo), and the fields selectedNodes, lastClicked and dragging of
the Tree class. -/
structure TreeState where
  entries : List NodeId
  vchildren : NodeId → List NodeId
  panelChildren : List NodeId
  expanded : NodeId → Bool
  scrolledTo : Option NodeId
  selectedNodes : List NodeId
  lastClicked : Option NodeId
  dragging : Option (List NodeId)

/-- Insert e immediately after the first occurrence of q; when q does not
occur, append e at the end. -/
def insertAfterAux (e q : NodeId) : List NodeId → List NodeId
  | [] => [e]
  | x :: xs => if x = q then x :: e :: xs else x :: insertAfterAux e q xs

/-- Modelled from the spec: TreeGroup.insertAfter (treeItemGroup is not under
src).  Section 4.3 of the spec: if a new-previous-sibling is given, insert
immediately after the visual element of that sibling, else insert at the end
of the children of the parent. -/
def insertAfterList (l : List NodeId) (e : NodeId) (pre : Option NodeId) : List NodeId :=
  match pre with
  | none => l ++ [e]
  | some q => insertAfterAux e q l

/-- Modelled from the spec: TreeItem.removeChild detaches the element of the
child from the element of the old parent (DOM removeChild). -/
def viewRemoveChild (t : TreeState) (p c : NodeId) : TreeState :=
  { t with vchildren := fun x => if x = p then (t.vchildren p).erase c else t.vchildren x }

/-- Modelled from the spec: TreeGroup.insertAfter at the level of the DOM.
Inserting an element that is already attached moves it, so the element is
first detached from every child list, then inserted after the given sibling
or at the end when none is given. -/
def viewInsertAfter (t : TreeState) (p e : NodeId) (pre : Option NodeId) : TreeState :=
  { t with vchildren := fun x =>
      if x = p then insertAfterList ((t.vchildren p).erase e) e pre
      else (t.vchildren x).erase e }

/-- Shallow embedding of Tree.createHTMLElement (src lines 374-384) reduced
to its control flow: a TreeGroup is built for a container node, a TreeModel
for a leaf node, and an unknown kind throws.  The element value itself is
the node identity, so only success or failure is returned. -/
def createHTMLElement (κ : NodeId → NKind) (n : NodeId) : Except String Unit :=
  match κ n with
  | NKind.container => Except.ok ()
  | NKind.leaf => Except.ok ()
  | NKind.other => Except.error ("unknown node")

/-- Shallow embedding of Tree.ensureHasHTML (src lines 334-340): for every
record whose node has no entry in the nodeMap, create an element for it and
register it.  The forEach loop is written as direct recursion over the
batch. -/
def ensureHasHTML (κ : NodeId → NKind) : TreeState → List NodeRecord → Except String TreeState
  | t, [] => Except.ok t
  | t, r :: rs =>
    if r.node ∈ t.entries then ensureHasHTML κ t rs
    else
      match createHTMLElement κ r.node with
      | Except.error e => Except.error e
      | Except.ok _ => ensureHasHTML κ { t with entries := t.entries ++ [r.node] } rs

/-- The old-parent half of the loop body of Tree.handleNodeLinkedChanged
(src lines 308-310): when the record carries an old parent and that parent
has an entry, detach the element of the node from it. -/
def applyDetach (t : TreeState) (r : NodeRecord) : TreeState :=
  match r.oldParent with
  | none => t
  | some op => if op ∈ t.entries then viewRemoveChild t op r.node else t

/-- The new-parent half of the loop body of Tree.handleNodeLinkedChanged
(src lines 311-316): when the record carries a new parent whose entry exists
and is a TreeGroup, insert the element of the node after the element of the
new previous sibling; a missing entry for the previous sibling falls back to
null, which appends at the end. -/
def applyAttach (κ : NodeId → NKind) (t : TreeState) (r : NodeRecord) : TreeState :=
  match r.newParent with
  | none => t
  | some np =>
    if np ∈ t.entries ∧ κ np = NKind.container then
      viewInsertAfter t np r.node
        (match r.newPrevious with
         | none => none
         | some q => if q ∈ t.entries then some q else none)
    else t

/-- One iteration of the record loop of Tree.handleNodeLinkedChanged
(src lines 305-318).  After ensureHasHTML the lookup of the element of the
node can only fail for nodes outside the map, in which case the record is
skipped (the continue statement). -/
def applyRecord (κ : NodeId → NKind) (t : TreeState) (r : NodeRecord) : TreeState :=
  if r.node ∈ t.entries then applyAttach κ (applyDetach t r) r else t

/-- Shallow embedding of Tree.handleNodeLinkedChanged (src lines 303-319):
first ensureHasHTML over the whole batch, then the record loop. -/
def handleNodeLinkedChanged (κ : NodeId → NKind) (t : TreeState) (rs : List NodeRecord) :
    Except String TreeState :=
  match ensureHasHTML κ t rs with
  | Except.error e => Except.error e
  | Except.ok t1 => Except.ok (rs.foldl (applyRecord κ) t1)

/-- Modelled from the spec: the Node Graph (INodeLinkedList of chili-core is
not under src).  Sections 3 and 4.1 of the spec: ordered sibling chains are
represented as one ordered child list per node; dom is the finite set of
nodes that may own children and root is the distinguished root node. -/
structure Graph where
  children : NodeId → List NodeId
  dom : List NodeId
  root : NodeId

/-- Modelled from the spec: one structural edit of the Node Graph, carrying
the node, the new parent (none for a removal) and the new previous sibling
(none appends at the end of the new parent, matching the record contract of
section 3 of the spec and the note in section 9 that the third argument of
move acts as the new previous sibling). -/
structure Mutation where
  node : NodeId
  newParent : Option NodeId
  newPrevious : Option NodeId

/-- Modelled from the spec: the parent back-pointer of a node, recovered as
the unique owner whose child list contains it. -/
def gparent (g : Graph) (n : NodeId) : Option NodeId :=
  g.dom.find? (fun p => decide (n ∈ g.children p))

/-- The element immediately before the first occurrence of n, given the
element p preceding the rest of the list. -/
def prevInAux (n : NodeId) : NodeId → List NodeId → Option NodeId
  | _, [] => none
  | p, x :: xs => if x = n then some p else prevInAux n x xs

/-- The element immediately before the first occurrence of n in l. -/
def prevIn (l : List NodeId) (n : NodeId) : Option NodeId :=
  match l with
  | [] => none
  | x :: xs => if x = n then none else prevInAux n x xs

/-- Modelled from the spec: the previous sibling of a node in the Node
Graph. -/
def gprevious (g : Graph) (n : NodeId) : Option NodeId :=
  match gparent g n with
  | none => none
  | some p => prevIn (g.children p) n

/-- Modelled from the spec: the change record emitted for one mutation,
capturing the old parent and old previous sibling before the edit
(section 3 of the spec). -/
def mkRecord (g : Graph) (m : Mutation) : NodeRecord :=
  { node := m.node
    oldParent := gparent g m.node
    oldPrevious := gprevious g m.node
    newParent := m.newParent
    newPrevious := m.newPrevious }

/-- Modelled from the spec: applying one mutation to the Node Graph.  The
node is unlinked from every child list, then, when a new parent is given,
inserted into its child list after the new previous sibling or at the end
when none is given (sections 3 and 4.1 of the spec). -/
def graphApply (g : Graph) (m : Mutation) : Graph :=
  match m.newParent with
  | none => { children := fun p => (g.children p).erase m.node, dom := g.dom, root := g.root }
  | some np =>
    { children := fun p =>
        if p = np then insertAfterList ((g.children np).erase m.node) m.node m.newPrevious
        else (g.children p).erase m.node
      dom := np :: g.dom
      root := g.root }

/-- Modelled from the spec: one mutation step returns the new graph and the
emitted change record. -/
def graphStep (g : Graph) (m : Mutation) : Graph × NodeRecord :=
  (graphApply g m, mkRecord g m)

/-- Modelled from the spec: a transactional scope applies a sequence of
mutations and emits the concatenation of their records as one batch. -/
def graphRun : Graph → List Mutation → Graph × List NodeRecord
  | g, [] => (g, [])
  | g, m :: ms =>
    ((graphRun (graphApply g m) ms).1, mkRecord g m :: (graphRun (graphApply g m) ms).2)

/-- Reachability from the root of the Node Graph through child lists. -/
inductive Reaches (g : Graph) : NodeId → Prop where
  | root : Reaches g g.root
  | child (p c : NodeId) : Reaches g p → c ∈ g.children p → Reaches g c

/-- Synchronisation invariant between the Node Graph and the view: every
element child list equals the graph child list of its node (this is the
parent, child and order isomorphism), every node owning children has a view
entry, every node has at most one parent, sibling chains have no duplicates,
and dom covers every owner of children. -/
structure SyncInv (g : Graph) (t : TreeState) : Prop where
  eqch : ∀ p, t.vchildren p = g.children p
  closed : ∀ p, g.children p ≠ [] → p ∈ t.entries
  uniq : ∀ p q n, n ∈ g.children p → n ∈ g.children q → p = q
  nd : ∀ p, (g.children p).Nodup
  domc : ∀ p, g.children p ≠ [] → p ∈ g.dom

/-- Sets the isExpanded flag of the entry of p when that entry is a group;
the source writes group.isExpanded = true only when the flag is strictly
false, which for a container is the same as setting it to true, and for a
leaf entry the strict comparison with false never holds. -/
def expandGroup (κ : NodeId → NKind) (t : TreeState) (p : NodeId) : TreeState :=
  if κ p = NKind.container then
    { t with expanded := fun x => if x = p then true else t.expanded x }
  else t

/-- Shallow embedding of the ancestor while loop of Tree.scrollToNode
(src lines 345-354): while a parent remains, look its entry up; when the
entry exists, expand it if collapsed and advance to the grandparent; when it
does not, the loop variable is left unchanged.  The fuel counts iterations;
none means the loop is still running after that many iterations. -/
def scrollAncestors (κ : NodeId → NKind) (pl : NodeId → Option NodeId) :
    Nat → TreeState → Option NodeId → Option TreeState
  | 0, _, _ => none
  | Nat.succ fuel, t, parentOpt =>
    match parentOpt with
    | none => some t
    | some p =>
      if p ∈ t.entries then scrollAncestors κ pl fuel (expandGroup κ t p) (pl p)
      else scrollAncestors κ pl fuel t (some p)

/-- Shallow embedding of Tree.scrollToNode (src lines 342-357): take the
first selected node, walk its ancestors, then scroll its element into view
when it has one. -/
def scrollToNode (κ : NodeId → NKind) (pl : NodeId → Option NodeId) (fuel : Nat)
    (t : TreeState) (selected : List NodeId) : Option TreeState :=
  match selected.head? with
  | none => some t
  | some node =>
    match scrollAncestors κ pl fuel t (pl node) with
    | none => none
    | some t1 => some (if node ∈ t1.entries then { t1 with scrolledTo := some node } else t1)

/-- Shallow embedding of Tree.handleSelectionChanged (src lines 321-332):
drop the unselected nodes from the local selected set, clear the last
clicked anchor, add the selected nodes, then scroll to the first selected
node.  The style toggling on entries is presentation only and is not part of
the state. -/
def handleSelectionChanged (κ : NodeId → NKind) (pl : NodeId → Option NodeId) (fuel : Nat)
    (t : TreeState) (selected unselected : List NodeId) : Option TreeState :=
  let t1 := { t with selectedNodes := t.selectedNodes.filter (fun y => !decide (y ∈ unselected)) }
  let t2 := { t1 with lastClicked := none }
  let added := selected.foldl (fun l x => if x ∈ l then l else l ++ [x]) t2.selectedNodes
  let t3 := { t2 with selectedNodes := added }
  scrollToNode κ pl fuel t3 selected

/-- The chain of ancestors of a node under the parent pointer pl, ending at
a node without parent. -/
def AncChain (pl : NodeId → Option NodeId) : NodeId → List NodeId → Prop
  | n, [] => pl n = none
  | n, a :: as => pl n = some a ∧ AncChain pl a as

/-- The modifier state of a pointer event as read by Tree.onClick. -/
structure ClickEvent where
  shiftKey : Bool
  ctrlKey : Bool
  metaKey : Bool

/-- A call into the Selection Manager: selection.select(nodes, additive). -/
inductive SelectCall where
  | select (nodes : List NodeId) (additive : Bool)
deriving DecidableEq

/-- Shallow embedding of Tree.onClick (src lines 408-423).  The item is the
node of the tree item under the pointer (none when the target resolves to no
tree item, which returns early).  The between function models
INode.getNodesBetween, an external primitive.  The returned pair is the call
issued to the Selection Manager, if any, and the new state after
setLastClickItem; the currentNode assignment of setLastClickItem targets the
document and is outside TreeState. -/
def onClick (between : NodeId → NodeId → List NodeId) (ev : ClickEvent)
    (t : TreeState) (item : Option NodeId) : Option SelectCall × TreeState :=
  match item with
  | none => (none, t)
  | some n =>
    let call : Option SelectCall :=
      if ev.shiftKey then
        match t.lastClicked with
        | some anchor => some (SelectCall.select (between anchor n) false)
        | none => none
      else some (SelectCall.select [n] ev.ctrlKey)
    (call, { t with lastClicked := some n })

/-- Follows the words of claim C8, not the source: a Ctrl or Cmd click is
additive.  Compared against onClick, which reads only ctrlKey. -/
def claimedOnClick (between : NodeId → NodeId → List NodeId) (ev : ClickEvent)
    (t : TreeState) (item : Option NodeId) : Option SelectCall × TreeState :=
  match item with
  | none => (none, t)
  | some n =>
    let call : Option SelectCall :=
      if ev.shiftKey then
        match t.lastClicked with
        | some anchor => some (SelectCall.select (between anchor n) false)
        | none => none
      else some (SelectCall.select [n] (ev.ctrlKey || ev.metaKey))
    (call, { t with lastClicked := some n })

/-- Shallow embedding of Tree.findAllCommonParents (src lines 487-495): a
selected node is kept when its parent is absent or not itself selected. -/
def findAllCommonParents (pl : NodeId → Option NodeId) (sel : List NodeId) : List NodeId :=
  sel.filter (fun n =>
    match pl n with
    | none => true
    | some p => !decide (p ∈ sel))

/-- Shallow embedding of Tree.onDragStart (src lines 478-485): the dragging
field becomes the minimal roots of the selection, with the item under the
pointer pushed at the end when it is not selected. -/
def onDragStart (pl : NodeId → Option NodeId) (t : TreeState) (item : Option NodeId) :
    TreeState :=
  let d := findAllCommonParents pl t.selectedNodes
  let d2 :=
    match item with
    | none => d
    | some i => if i ∈ t.selectedNodes then d else d ++ [i]
  { t with dragging := some d2 }

/-- Shallow embedding of the ancestor while loop of Tree.canDrop (src lines
452-456), with fuel bounding the walk; an undefined dragging field makes
every membership test falsy. -/
def canDropLoop (pl : NodeId → Option NodeId) (dragging : Option (List NodeId)) :
    Nat → Option NodeId → Option Bool
  | 0, _ => none
  | Nat.succ fuel, parentOpt =>
    match parentOpt with
    | none => some true
    | some p =>
      if p ∈ dragging.getD [] then some false
      else canDropLoop pl dragging fuel (pl p)

/-- Shallow embedding of Tree.canDrop (src lines 448-458). -/
def canDrop (pl : NodeId → Option NodeId) (fuel : Nat) (t : TreeState) (tgt : Option NodeId) :
    Option Bool :=
  match tgt with
  | none => some false
  | some node =>
    if node ∈ t.dragging.getD [] then some false
    else canDropLoop pl t.dragging fuel (pl node)

/-- Shallow embedding of Tree.onDragOver (src lines 429-435) reduced to the
affordance it grants: the drop cursor is the move affordance exactly when
canDrop holds. -/
def onDragOver (pl : NodeId → Option NodeId) (fuel : Nat) (t : TreeState)
    (tgt : Option NodeId) : Option Bool :=
  canDrop pl fuel t tgt

/-- A call x.parent.move(x, newParent, target) emitted inside the drop
transaction: receiver is the old parent on which move is invoked. -/
structure MoveCall where
  receiver : NodeId
  child : NodeId
  newParent : Option NodeId
  target : Option NodeId
deriving DecidableEq

/-- One call to Transaction.excute: its label and the move calls its body
performs in order. -/
structure TxScope where
  label : String
  calls : List MoveCall
deriving DecidableEq

/-- Shallow embedding of Tree.onDrop (src lines 460-476).  When the target
resolves to no tree item the handler returns early, leaving dragging as it
was; otherwise one transactional scope is executed whose body moves every
dragged node that has a parent, and dragging is cleared afterwards. -/
def onDrop (κ : NodeId → NKind) (pl : NodeId → Option NodeId) (t : TreeState)
    (tgt : Option NodeId) : Option TxScope × TreeState :=
  match tgt with
  | none => (none, t)
  | some node =>
    let isLinkList := κ node = NKind.container
    let newParent : Option NodeId := if isLinkList then some node else pl node
    let target : Option NodeId := if isLinkList then none else some node
    let calls := (t.dragging.getD []).filterMap
      (fun x => (pl x).map (fun p => MoveCall.mk p x newParent target))
    (some (TxScope.mk ("move node") calls), { t with dragging := none })

/-- Modelled from the spec: the linked navigation of INode used by the
initial walk, firstChild for containers and nextSibling for every node
(section 3 of the spec). -/
structure LinkGraph where
  firstChild : NodeId → Option NodeId
  nextSibling : NodeId → Option NodeId

/-- Registers an entry for n; the source overwrites the map slot with the
fresh element, of which only the identity is modelled. -/
def addEntry (t : TreeState) (n : NodeId) : TreeState :=
  if n ∈ t.entries then t else { t with entries := t.entries ++ [n] }

/-- Appends the element of n to the given parent element, or to the panel
when the parent is the Tree control itself. -/
def appendEl (t : TreeState) (parentEl : Option NodeId) (n : NodeId) : TreeState :=
  match parentEl with
  | none => { t with panelChildren := t.panelChildren ++ [n] }
  | some p =>
    { t with vchildren := fun x => if x = p then t.vchildren p ++ [n] else t.vchildren x }

/-- Shallow embedding of Tree.addAllNodes (src lines 359-372): create and
attach the element of the node, then, only when the node is a container,
recurse into its first child under its own element and into its next sibling
under the same parent element.  The fuel bounds the recursion; running out
of fuel yields a distinguished error that never occurs on the inputs
considered. -/
def addAllNodes (κ : NodeId → NKind) (lg : LinkGraph) :
    Nat → TreeState → Option NodeId → NodeId → Except String TreeState
  | 0, _, _, _ => Except.error ("fuel")
  | Nat.succ fuel, t, parentEl, n =>
    match createHTMLElement κ n with
    | Except.error e => Except.error e
    | Except.ok _ =>
      let t2 := appendEl (addEntry t n) parentEl n
      if κ n = NKind.container then
        match lg.firstChild n with
        | none =>
          match lg.nextSibling n with
          | none => Except.ok t2
          | some s => addAllNodes κ lg fuel t2 parentEl s
        | some c =>
          match addAllNodes κ lg fuel t2 (some n) c with
          | Except.error e => Except.error e
          | Except.ok t3 =>
            match lg.nextSibling n with
            | none => Except.ok t3
            | some s => addAllNodes κ lg fuel t3 parentEl s
      else Except.ok t2

/-- The empty state of a freshly constructed Tree control, before the
initial walk. -/
def emptyTreeState : TreeState :=
  { entries := []
    vchildren := fun _ => []
    panelChildren := []
    expanded := fun _ => true
    scrolledTo := none
    selectedNodes := []
    lastClicked := none
    dragging := none }

/-- Shallow embedding of the Tree constructor build step (src line 283):
the initial walk from the document root into the panel. -/
def treeInit (κ : NodeId → NKind) (lg : LinkGraph) (fuel : Nat) (root : NodeId) :
    Except String TreeState :=
  addAllNodes κ lg fuel emptyTreeState none root

/-- Reachability from the root through the linked navigation: the root, the
first child of a reachable node, and the next sibling of a reachable
node. -/
inductive LReach (lg : LinkGraph) (root : NodeId) : NodeId → Prop where
  | base : LReach lg root root
  | child (n c : NodeId) : LReach lg root n → lg.firstChild n = some c → LReach lg root c
  | sib (n s : NodeId) : LReach lg root n → lg.nextSibling n = some s → LReach lg root s

/-- The child list of node p in the view carried by a reconciliation result,
none when the reconciliation failed. -/
def vchildrenAt (e : Except String TreeState) (p : NodeId) : Option (List NodeId) :=
  match e with
  | Except.error _ => none
  | Except.ok t => some (t.vchildren p)

/-- Whether node n has a view entry in the state carried by a result, none
when the computation failed. -/
def entryQ (e : Except String TreeState) (n : NodeId) : Option Bool :=
  match e with
  | Except.error _ => none
  | Except.ok t => some (decide (n ∈ t.entries))

/-- Kind table for the isomorphism witness: node 0 is the root container,
every other node a leaf. -/
def wKappa : NodeId → NKind := fun n => if n = 0 then NKind.container else NKind.leaf

/-- Empty graph holding only the root 0. -/
def wGraph0 : Graph := { children := fun _ => [], dom := [], root := 0 }

/-- View state after construction over the root-only graph: one entry for
the root, attached to the panel. -/
def wTree0 : TreeState :=
  { entries := [0]
    vchildren := fun _ => []
    panelChildren := [0]
    expanded := fun _ => true
    scrolledTo := none
    selectedNodes := []
    lastClicked := none
    dragging := none }

/-- One transactional batch: insert the fresh leaf 1 under the root. -/
def wMs : List Mutation := [⟨1, some 0, none⟩]

/-- Kind table for the isomorphism counterexample: node 2 is a leaf, all
other nodes containers. -/
def cexKappa : NodeId → NKind := fun n => if n = 2 then NKind.leaf else NKind.container

/-- First batch of the counterexample: insert leaf 2 under the detached
container 1, which has no View Entry and no record of its own in the
batch. -/
def cexMs1 : List Mutation := [⟨2, some 1, none⟩]

/-- Second batch of the counterexample: insert container 1 under the
root 0, making the stale subtree reachable. -/
def cexMs2 : List Mutation := [⟨1, some 0, none⟩]

/-- Graph after the first counterexample batch. -/
def cexG1 : Graph := (graphRun wGraph0 cexMs1).1

/-- Graph after the second counterexample batch. -/
def cexG2 : Graph := (graphRun cexG1 cexMs2).1

/-- View after reconciling the first counterexample batch. -/
def cexView1 : Except String TreeState :=
  handleNodeLinkedChanged cexKappa wTree0 (graphRun wGraph0 cexMs1).2

/-- View after reconciling both counterexample batches. -/
def cexView2 : Except String TreeState :=
  match cexView1 with
  | Except.error e => Except.error e
  | Except.ok t => handleNodeLinkedChanged cexKappa t (graphRun cexG1 cexMs2).2

/-- A parent pointer where no node has a parent. -/
def plNone : NodeId → Option NodeId := fun _ => none

/-- A parent pointer chain 2 to 1 to 0 to none. -/
def plChain : NodeId → Option NodeId :=
  fun n => if n = 2 then some 1 else if n = 1 then some 0 else none

/-- Kind table making 0 and 1 containers and everything else a leaf. -/
def twoGroupKinds : NodeId → NKind :=
  fun n => if n = 0 then NKind.container else if n = 1 then NKind.container else NKind.leaf

/-- Linked navigation for the initial-walk failing input: root 0 has first
child 2, and the leaf 2 has next sibling 1. -/
def lgLeafSib : LinkGraph :=
  { firstChild := fun n => if n = 0 then some 2 else none
    nextSibling := fun n => if n = 2 then some 1 else none }

/-! Helper lemmas about list insertion and the view primitives. -/

lemma mem_insertAfterAux (e q n : NodeId) (l : List NodeId) :
    n ∈ insertAfterAux e q l ↔ n ∈ l ∨ n = e := by
  induction l with
  | nil => simp [insertAfterAux]
  | cons x xs ih =>
    by_cases hx : x = q
    · simp [insertAfterAux, hx]
      tauto
    · simp [insertAfterAux, hx, ih]
      tauto

lemma mem_insertAfterList (l : List NodeId) (e : NodeId) (pre : Option NodeId) (n : NodeId) :
    n ∈ insertAfterList l e pre ↔ n ∈ l ∨ n = e := by
  cases pre with
  | none => simp [insertAfterList]
  | some q => simp [insertAfterList, mem_insertAfterAux]

lemma nodup_insertAfterAux (e q : NodeId) (l : List NodeId)
    (hl : l.Nodup) (he : e ∉ l) : (insertAfterAux e q l).Nodup := by
  induction l with
  | nil => simp [insertAfterAux]
  | cons x xs ih =>
    rcases List.nodup_cons.mp hl with ⟨hx, hxs⟩
    have hex : e ≠ x := fun h => he (h ▸ List.mem_cons_self x xs)
    have hexs : e ∉ xs := fun h => he (List.mem_cons_of_mem x h)
    by_cases hq : x = q
    · simp only [insertAfterAux, if_pos hq]
      refine List.nodup_cons.mpr ⟨?_, List.nodup_cons.mpr ⟨hexs, hxs⟩⟩
      simp only [List.mem_cons]
      rintro (h | h)
      · exact hex h.symm
      · exact hx h
    · simp only [insertAfterAux, if_neg hq]
      refine List.nodup_cons.mpr ⟨?_, ih hxs hexs⟩
      rw [mem_insertAfterAux]
      rintro (h | h)
      · exact hx h
      · exact hex h.symm

lemma nodup_insertAfterList (l : List NodeId) (e : NodeId) (pre : Option NodeId)
    (hl : l.Nodup) (he : e ∉ l) : (insertAfterList l e pre).Nodup := by
  cases pre with
  | none => simpa using List.Nodup.append hl (List.nodup_singleton e) (by simpa using he)
  | some q => exact nodup_insertAfterAux e q l hl he

lemma not_mem_erase_self (n : NodeId) (l : List NodeId) (h : l.Nodup) :
    n ∉ l.erase n := by
  intro hmem
  exact ((List.Nodup.mem_erase_iff h).mp hmem).1 rfl

lemma viewRemoveChild_entries (t : TreeState) (p c : NodeId) :
    (viewRemoveChild t p c).entries = t.entries := rfl

lemma viewInsertAfter_entries (t : TreeState) (p e : NodeId) (pre : Option NodeId) :
    (viewInsertAfter t p e pre).entries = t.entries := rfl

lemma applyDetach_entries (t : TreeState) (r : NodeRecord) :
    (applyDetach t r).entries = t.entries := by
  unfold applyDetach
  cases r.oldParent with
  | none => rfl
  | some op =>
    by_cases h : op ∈ t.entries
    · simp [h, viewRemoveChild_entries]
    · simp [h]

lemma applyAttach_entries (κ : NodeId → NKind) (t : TreeState) (r : NodeRecord) :
    (applyAttach κ t r).entries = t.entries := by
  unfold applyAttach
  cases r.newParent with
  | none => rfl
  | some np =>
    by_cases h : np ∈ t.entries ∧ κ np = NKind.container
    · simp [h, viewInsertAfter_entries]
    · simp [h]

lemma applyRecord_entries (κ : NodeId → NKind) (t : TreeState) (r : NodeRecord) :
    (applyRecord κ t r).entries = t.entries := by
  unfold applyRecord
  by_cases h : r.node ∈ t.entries
  · simp [h, applyAttach_entries, applyDetach_entries]
  · simp [h]

lemma foldl_applyRecord_entries (κ : NodeId → NKind) (rs : List NodeRecord) :
    ∀ t : TreeState, (List.foldl (applyRecord κ) t rs).entries = t.entries := by
  induction rs with
  | nil => intro t; rfl
  | cons r rs ih =>
    intro t
    rw [List.foldl_cons, ih, applyRecord_entries]

/-! Helper lemmas about ensureHasHTML. -/

lemma ensureHasHTML_ok (κ : NodeId → NKind) (rs : List NodeRecord) :
    ∀ t : TreeState, (∀ r ∈ rs, κ r.node ≠ NKind.other) →
      ∃ t1, ensureHasHTML κ t rs = Except.ok t1 := by
  induction rs with
  | nil => intro t _; exact ⟨t, rfl⟩
  | cons r rs ih =>
    intro t hk
    have hkr : κ r.node ≠ NKind.other := hk r (List.mem_cons_self r rs)
    have hkt : ∀ r' ∈ rs, κ r'.node ≠ NKind.other :=
      fun r' h => hk r' (List.mem_cons_of_mem r h)
    by_cases hmem : r.node ∈ t.entries
    · simpa [ensureHasHTML, hmem] using ih t hkt
    · have hcreate : createHTMLElement κ r.node = Except.ok () := by
        unfold createHTMLElement
        cases h : κ r.node with
        | container => rfl
        | leaf => rfl
        | other => exact absurd h hkr
      simpa [ensureHasHTML, hmem, hcreate] using
        ih { t with entries := t.entries ++ [r.node] } hkt

lemma ensureHasHTML_mono (κ : NodeId → NKind) (rs : List NodeRecord) :
    ∀ t t1 : TreeState, ensureHasHTML κ t rs = Except.ok t1 →
      ∀ x, x ∈ t.entries → x ∈ t1.entries := by
  induction rs with
  | nil =>
    intro t t1 h x hx
    simp only [ensureHasHTML, Except.ok.injEq] at h
    exact h ▸ hx
  | cons r rs ih =>
    intro t t1 h x hx
    by_cases hmem : r.node ∈ t.entries
    · simp only [ensureHasHTML, if_pos hmem] at h
      exact ih t t1 h x hx
    · simp only [ensureHasHTML, if_neg hmem] at h
      cases hc : createHTMLElement κ r.node with
      | error e => rw [hc] at h; exact Except.noConfusion h
      | ok u =>
        rw [hc] at h
        dsimp only at h
        exact ih { t with entries := t.entries ++ [r.node] } t1 h x (List.mem_append_left _ hx)

lemma ensureHasHTML_mem_nodes (κ : NodeId → NKind) (rs : List NodeRecord) :
    ∀ t t1 : TreeState, ensureHasHTML κ t rs = Except.ok t1 →
      ∀ r ∈ rs, r.node ∈ t1.entries := by
  induction rs with
  | nil => intro t t1 _ r hr; exact absurd hr (List.not_mem_nil r)
  | cons r0 rs ih =>
    intro t t1 h r hr
    by_cases hmem : r0.node ∈ t.entries
    · simp only [ensureHasHTML, if_pos hmem] at h
      rcases List.mem_cons.mp hr with hre | hrs
      · exact hre ▸ ensureHasHTML_mono κ rs t t1 h r0.node hmem
      · exact ih t t1 h r hrs
    · simp only [ensureHasHTML, if_neg hmem] at h
      cases hc : createHTMLElement κ r0.node with
      | error e => rw [hc] at h; exact Except.noConfusion h
      | ok u =>
        rw [hc] at h
        dsimp only at h
        rcases List.mem_cons.mp hr with hre | hrs
        · refine hre ▸ ensureHasHTML_mono κ rs { t with entries := t.entries ++ [r0.node] } t1 h r0.node ?_
          exact List.mem_append_right _ (List.mem_singleton.mpr rfl)
        · exact ih { t with entries := t.entries ++ [r0.node] } t1 h r hrs

lemma ensureHasHTML_vchildren (κ : NodeId → NKind) (rs : List NodeRecord) :
    ∀ t t1 : TreeState, ensureHasHTML κ t rs = Except.ok t1 →
      t1.vchildren = t.vchildren := by
  induction rs with
  | nil =>
    intro t t1 h
    simp only [ensureHasHTML, Except.ok.injEq] at h
    exact h ▸ rfl
  | cons r rs ih =>
    intro t t1 h
    by_cases hmem : r.node ∈ t.entries
    · simp only [ensureHasHTML, if_pos hmem] at h
      exact ih t t1 h
    · simp only [ensureHasHTML, if_neg hmem] at h
      cases hc : createHTMLElement κ r.node with
      | error e => rw [hc] at h; exact Except.noConfusion h
      | ok u =>
        rw [hc] at h
        dsimp only at h
        exact ih { t with entries := t.entries ++ [r.node] } t1 h

/-! Helper lemmas about the modelled Node Graph. -/

lemma gparent_some (g : Graph) (n p : NodeId) (h : gparent g n = some p) :
    n ∈ g.children p := by
  have hp := List.find?_some h
  simpa using hp

lemma gparent_none (g : Graph) (n : NodeId) (h : gparent g n = none)
    (hdom : ∀ p, g.children p ≠ [] → p ∈ g.dom) :
    ∀ p, n ∉ g.children p := by
  intro p hp
  have hpd : p ∈ g.dom := hdom p (List.ne_nil_of_mem hp)
  have hfind := List.find?_eq_none.mp h p hpd
  simp only [decide_eq_true_eq] at hfind
  exact hfind hp

lemma applyDetach_eq (g : Graph) (t : TreeState) (m : Mutation) (hinv : SyncInv g t) :
    ∀ x, (applyDetach t (mkRecord g m)).vchildren x = (g.children x).erase m.node := by
  intro x
  unfold applyDetach mkRecord
  dsimp only
  cases hop : gparent g m.node with
  | none =>
    have hnm : ∀ p, m.node ∉ g.children p := gparent_none g m.node hop hinv.domc
    dsimp only
    rw [hinv.eqch x, List.erase_of_not_mem (hnm x)]
  | some p =>
    have hmem : m.node ∈ g.children p := gparent_some g m.node p hop
    have hpe : p ∈ t.entries := hinv.closed p (List.ne_nil_of_mem hmem)
    dsimp only
    rw [if_pos hpe]
    unfold viewRemoveChild
    dsimp only
    by_cases hx : x = p
    · subst hx
      rw [if_pos rfl, hinv.eqch x]
    · rw [if_neg hx, hinv.eqch x]
      have hnx : m.node ∉ g.children x := fun hmx => hx (hinv.uniq x p m.node hmx hmem)
      rw [List.erase_of_not_mem hnx]

lemma syncInv_detachOnly (g : Graph) (t : TreeState) (m : Mutation) (hinv : SyncInv g t)
    (t1 : TreeState)
    (h1 : ∀ x, t1.vchildren x = (g.children x).erase m.node)
    (h2 : t1.entries = t.entries) :
    SyncInv
      { children := fun p => (g.children p).erase m.node, dom := g.dom, root := g.root }
      t1 := by
  refine ⟨?_, ?_, ?_, ?_, ?_⟩
  · intro p
    exact h1 p
  · intro p hp
    dsimp only at hp
    rw [h2]
    refine hinv.closed p ?_
    intro hnil
    exact hp (by rw [hnil]; rfl)
  · intro p q n hp hq2
    dsimp only at hp hq2
    exact hinv.uniq p q n (List.mem_of_mem_erase hp) (List.mem_of_mem_erase hq2)
  · intro p
    dsimp only
    exact List.Nodup.erase _ (hinv.nd p)
  · intro p hp
    dsimp only at hp ⊢
    refine hinv.domc p ?_
    intro hnil
    exact hp (by rw [hnil]; rfl)

lemma syncInv_insert (g : Graph) (t : TreeState) (m : Mutation) (np : NodeId)
    (hinv : SyncInv g t) (hnpE : np ∈ t.entries)
    (t1 : TreeState)
    (h1 : ∀ x, t1.vchildren x = (g.children x).erase m.node)
    (h2 : t1.entries = t.entries) :
    SyncInv
      { children := fun p =>
          if p = np then insertAfterList ((g.children np).erase m.node) m.node m.newPrevious
          else (g.children p).erase m.node
        dom := np :: g.dom
        root := g.root }
      (viewInsertAfter t1 np m.node m.newPrevious) := by
  have hmerased : ∀ p, m.node ∉ (g.children p).erase m.node :=
    fun p => not_mem_erase_self m.node (g.children p) (hinv.nd p)
  refine ⟨?_, ?_, ?_, ?_, ?_⟩
  · intro x
    simp only [viewInsertAfter]
    by_cases hx : x = np
    · subst hx
      rw [if_pos rfl, if_pos rfl, h1 x, List.erase_of_not_mem (hmerased x)]
    · rw [if_neg hx, if_neg hx, h1 x, List.erase_of_not_mem (hmerased x)]
  · intro p hp
    dsimp only at hp
    show p ∈ t1.entries
    rw [h2]
    by_cases hx : p = np
    · exact hx ▸ hnpE
    · rw [if_neg hx] at hp
      refine hinv.closed p ?_
      intro hnil
      exact hp (by rw [hnil]; rfl)
  · intro p q n hp hq2
    dsimp only at hp hq2
    by_cases hn : n = m.node
    · subst hn
      by_cases hpx : p = np
      · by_cases hqx : q = np
        · rw [hpx, hqx]
        · rw [if_neg hqx] at hq2
          exact absurd hq2 (hmerased q)
      · rw [if_neg hpx] at hp
        exact absurd hp (hmerased p)
    · have hpmem : n ∈ g.children p := by
        by_cases hpx : p = np
        · rw [if_pos hpx] at hp
          rcases (mem_insertAfterList _ _ _ _).mp hp with h | h
          · exact hpx ▸ List.mem_of_mem_erase h
          · exact absurd h hn
        · rw [if_neg hpx] at hp
          exact List.mem_of_mem_erase hp
      have hqmem : n ∈ g.children q := by
        by_cases hqx : q = np
        · rw [if_pos hqx] at hq2
          rcases (mem_insertAfterList _ _ _ _).mp hq2 with h | h
          · exact hqx ▸ List.mem_of_mem_erase h
          · exact absurd h hn
        · rw [if_neg hqx] at hq2
          exact List.mem_of_mem_erase hq2
      exact hinv.uniq p q n hpmem hqmem
  · intro p
    dsimp only
    by_cases hx : p = np
    · rw [if_pos hx]
      exact nodup_insertAfterList _ _ _ (List.Nodup.erase _ (hinv.nd np)) (hmerased np)
    · rw [if_neg hx]
      exact List.Nodup.erase _ (hinv.nd p)
  · intro p hp
    dsimp only at hp ⊢
    by_cases hx : p = np
    · exact hx ▸ List.mem_cons_self np g.dom
    · rw [if_neg hx] at hp
      refine List.mem_cons_of_mem np ?_
      refine hinv.domc p ?_
      intro hnil
      exact hp (by rw [hnil]; rfl)

lemma applyRecord_step (κ : NodeId → NKind) (g : Graph) (t : TreeState) (m : Mutation)
    (hinv : SyncInv g t)
    (hn : m.node ∈ t.entries)
    (hnp : ∀ np, m.newParent = some np → κ np = NKind.container ∧ np ∈ t.entries)
    (hq : ∀ q, m.newPrevious = some q → q ∈ t.entries) :
    SyncInv (graphApply g m) (applyRecord κ t (mkRecord g m)) := by
  have hdet := applyDetach_eq g t m hinv
  have hdetE : (applyDetach t (mkRecord g m)).entries = t.entries := applyDetach_entries _ _
  unfold applyRecord
  rw [if_pos (show (mkRecord g m).node ∈ t.entries from hn)]
  set t1 := applyDetach t (mkRecord g m) with ht1
  have h1 : ∀ x, t1.vchildren x = (g.children x).erase m.node := hdet
  have h2 : t1.entries = t.entries := hdetE
  unfold applyAttach graphApply
  dsimp only [mkRecord]
  cases hm : m.newParent with
  | none =>
    dsimp only
    exact syncInv_detachOnly g t m hinv t1 h1 h2
  | some np =>
    obtain ⟨hcon, hnpE⟩ := hnp np hm
    have hnpE1 : np ∈ t1.entries := h2 ▸ hnpE
    dsimp only
    rw [if_pos (And.intro hnpE1 hcon)]
    have hpre : (match m.newPrevious with
        | none => none
        | some q => if q ∈ t1.entries then some q else none) = m.newPrevious := by
      cases hq2 : m.newPrevious with
      | none => rfl
      | some q =>
        have hqe : q ∈ t1.entries := h2 ▸ hq q hq2
        simp [hqe]
    rw [hpre]
    exact syncInv_insert g t m np hinv hnpE t1 h1 h2

lemma graphRun_cons (g : Graph) (m : Mutation) (ms : List Mutation) :
    graphRun g (m :: ms) =
      ((graphRun (graphApply g m) ms).1, mkRecord g m :: (graphRun (graphApply g m) ms).2) :=
  rfl

lemma graphRun_nodes (ms : List Mutation) :
    ∀ g : Graph, ((graphRun g ms).2).map NodeRecord.node = ms.map Mutation.node := by
  induction ms with
  | nil => intro g; rfl
  | cons m ms ih =>
    intro g
    rw [graphRun_cons]
    dsimp only [List.map_cons]
    rw [ih (graphApply g m)]
    rfl

lemma graphRun_fold (κ : NodeId → NKind) :
    ∀ (ms : List Mutation) (g : Graph) (t : TreeState), SyncInv g t →
      (∀ m ∈ ms, m.node ∈ t.entries ∧
        (∀ np, m.newParent = some np → κ np = NKind.container ∧ np ∈ t.entries) ∧
        (∀ q, m.newPrevious = some q → q ∈ t.entries)) →
      SyncInv (graphRun g ms).1 (List.foldl (applyRecord κ) t (graphRun g ms).2) := by
  intro ms
  induction ms with
  | nil =>
    intro g t hinv _
    simpa [graphRun] using hinv
  | cons m ms ih =>
    intro g t hinv hc
    obtain ⟨hn, hnp, hq⟩ := hc m (List.mem_cons_self m ms)
    have hstep := applyRecord_step κ g t m hinv hn hnp hq
    have hentries : (applyRecord κ t (mkRecord g m)).entries = t.entries :=
      applyRecord_entries κ t _
    rw [graphRun_cons]
    dsimp only
    rw [List.foldl_cons]
    refine ih (graphApply g m) (applyRecord κ t (mkRecord g m)) hstep ?_
    intro m2 hm2
    obtain ⟨a, b, c⟩ := hc m2 (List.mem_cons_of_mem m hm2)
    rw [hentries]
    exact ⟨a, b, c⟩

/-- C1, amended.  The original claim fails when a record references a new
parent that has no View Entry and is created by no record of the batch (see
the counterexample); under the amendment that every referenced new parent
and new previous sibling either has a View Entry already or is the node of
some record of the batch (and all batch nodes have a recognised kind, new
parents being containers), reconciliation succeeds and the child list of
every element of the view equals the child list of its node in the Node
Graph, in particular for every node reachable from the root: the parent,
child and sibling-order relations of the view and the graph are
isomorphic. -/
theorem handleNodeLinkedChanged_preserves_iso (κ : NodeId → NKind) (g : Graph)
    (t : TreeState) (ms : List Mutation)
    (hinv : SyncInv g t)
    (hkind : ∀ m ∈ ms, κ m.node ≠ NKind.other)
    (hnp : ∀ m ∈ ms, ∀ np, m.newParent = some np →
      κ np = NKind.container ∧ (np ∈ t.entries ∨ np ∈ ms.map Mutation.node))
    (hq : ∀ m ∈ ms, ∀ q, m.newPrevious = some q →
      q ∈ t.entries ∨ q ∈ ms.map Mutation.node) :
    ∃ t2, handleNodeLinkedChanged κ t (graphRun g ms).2 = Except.ok t2 ∧
      (∀ p, t2.vchildren p = ((graphRun g ms).1).children p) ∧
      (∀ p, Reaches (graphRun g ms).1 p →
        t2.vchildren p = ((graphRun g ms).1).children p) := by
  have hnodes := graphRun_nodes ms g
  have hmemnode : ∀ x, x ∈ ms.map Mutation.node →
      ∃ r ∈ (graphRun g ms).2, r.node = x := by
    intro x hx
    rw [← hnodes] at hx
    rcases List.mem_map.mp hx with ⟨r, hr, hrx⟩
    exact ⟨r, hr, hrx⟩
  have hkr : ∀ r ∈ (graphRun g ms).2, κ r.node ≠ NKind.other := by
    intro r hr
    have : r.node ∈ ms.map Mutation.node := by
      rw [← hnodes]
      exact List.mem_map.mpr ⟨r, hr, rfl⟩
    rcases List.mem_map.mp this with ⟨m, hm, hmx⟩
    exact hmx ▸ hkind m hm
  obtain ⟨t1, he⟩ := ensureHasHTML_ok κ (graphRun g ms).2 t hkr
  have hmono := ensureHasHTML_mono κ (graphRun g ms).2 t t1 he
  have hmemn := ensureHasHTML_mem_nodes κ (graphRun g ms).2 t t1 he
  have hvc := ensureHasHTML_vchildren κ (graphRun g ms).2 t t1 he
  have hnodes1 : ∀ x, x ∈ ms.map Mutation.node → x ∈ t1.entries := by
    intro x hx
    rcases hmemnode x hx with ⟨r, hr, hrx⟩
    exact hrx ▸ hmemn r hr
  have hinv1 : SyncInv g t1 := by
    refine ⟨?_, ?_, hinv.uniq, hinv.nd, hinv.domc⟩
    · intro p
      rw [congrFun hvc p]
      exact hinv.eqch p
    · intro p hp
      exact hmono p (hinv.closed p hp)
  have hfold := graphRun_fold κ ms g t1 hinv1 ?cond
  case cond =>
    intro m hm
    refine ⟨?_, ?_, ?_⟩
    · exact hnodes1 m.node (List.mem_map.mpr ⟨m, hm, rfl⟩)
    · intro np hnp2
      rcases hnp m hm np hnp2 with ⟨hcon, hmem | hmem⟩
      · exact ⟨hcon, hmono np hmem⟩
      · exact ⟨hcon, hnodes1 np hmem⟩
    · intro q hq2
      rcases hq m hm q hq2 with hmem | hmem
      · exact hmono q hmem
      · exact hnodes1 q hmem
  refine ⟨List.foldl (applyRecord κ) t1 (graphRun g ms).2, ?_, ?_, ?_⟩
  · unfold handleNodeLinkedChanged
    rw [he]
  · exact hfold.eqch
  · intro p _
    exact hfold.eqch p

/-- Witness for the amended isomorphism theorem at a concrete input: the
root-only view, one batch inserting leaf 1 under the root. -/
theorem handleNodeLinkedChanged_preserves_iso_witness :
    ∃ t2, handleNodeLinkedChanged wKappa wTree0 (graphRun wGraph0 wMs).2 = Except.ok t2 ∧
      (∀ p, t2.vchildren p = ((graphRun wGraph0 wMs).1).children p) ∧
      (∀ p, Reaches (graphRun wGraph0 wMs).1 p →
        t2.vchildren p = ((graphRun wGraph0 wMs).1).children p) :=
  handleNodeLinkedChanged_preserves_iso wKappa wGraph0 wTree0 wMs
    ⟨fun _ => rfl, fun p h => absurd rfl h,
     fun p q n h _ => absurd h (List.not_mem_nil n),
     fun _ => List.nodup_nil, fun p h => absurd rfl h⟩
    (by decide)
    (by
      intro m hm np h
      simp only [wMs, List.mem_singleton] at hm
      subst hm
      simp only [wMs] at h
      cases h
      exact ⟨rfl, Or.inl (by decide)⟩)
    (by
      intro m hm q h
      simp only [wMs, List.mem_singleton] at hm
      subst hm
      simp only [wMs] at h
      cases h)

/-- Counterexample to C1 as stated: leaf 2 is inserted under the detached
container 1 in a first batch (container 1 has no View Entry and no creation
record), then container 1 is inserted under the root in a second batch.
After both reconciliation passes the node 2 is reachable from the root and
the graph gives container 1 the child list containing 2, but the element of
container 1 in the view has no children: the view is not isomorphic to the
graph on nodes reachable from the root. -/
theorem iso_fails_on_unmapped_parent :
    Reaches cexG2 2 ∧ cexG2.children 1 = [2] ∧ vchildrenAt cexView2 1 = some [] :=
  ⟨Reaches.child 1 2 (Reaches.child 0 1 Reaches.root (by decide)) (by decide),
   by decide, by decide⟩

/-- C2: the entry-creation pass of handleNodeLinkedChanged runs over the
whole batch before any record is applied, hence at the moment any record of
the batch is applied (that is, after any prefix of the record loop), the
node of every record of the batch already has a View Entry. -/
theorem ensure_before_apply (κ : NodeId → NKind) (t : TreeState) (rs : List NodeRecord)
    (hk : ∀ r ∈ rs, κ r.node ≠ NKind.other)
    (l : List NodeRecord) (r : NodeRecord) (l2 : List NodeRecord)
    (hsplit : rs = l ++ r :: l2) (r2 : NodeRecord) (hr2 : r2 ∈ rs) :
    ∃ t1, ensureHasHTML κ t rs = Except.ok t1 ∧
      handleNodeLinkedChanged κ t rs = Except.ok (List.foldl (applyRecord κ) t1 rs) ∧
      r2.node ∈ (List.foldl (applyRecord κ) t1 l).entries := by
  obtain ⟨t1, he⟩ := ensureHasHTML_ok κ rs t hk
  refine ⟨t1, he, ?_, ?_⟩
  · unfold handleNodeLinkedChanged
    rw [he]
  · rw [foldl_applyRecord_entries]
    exact ensureHasHTML_mem_nodes κ rs t t1 he r2 hr2

/-- Witness for ensure_before_apply: a two-record batch, checking that the
node of the second record has an entry before the first record is
applied. -/
theorem ensure_before_apply_witness :
    ∃ t1, ensureHasHTML (fun _ => NKind.leaf) emptyTreeState
        [⟨5, none, none, none, none⟩, ⟨6, none, none, some 5, some 5⟩] = Except.ok t1 ∧
      handleNodeLinkedChanged (fun _ => NKind.leaf) emptyTreeState
        [⟨5, none, none, none, none⟩, ⟨6, none, none, some 5, some 5⟩] =
        Except.ok (List.foldl (applyRecord (fun _ => NKind.leaf)) t1
          [⟨5, none, none, none, none⟩, ⟨6, none, none, some 5, some 5⟩]) ∧
      (⟨6, none, none, some 5, some 5⟩ : NodeRecord).node ∈
        (List.foldl (applyRecord (fun _ => NKind.leaf)) t1 [⟨5, none, none, none, none⟩]).entries :=
  ensure_before_apply (fun _ => NKind.leaf) emptyTreeState
    [⟨5, none, none, none, none⟩, ⟨6, none, none, some 5, some 5⟩]
    (by decide)
    [⟨5, none, none, none, none⟩] ⟨6, none, none, some 5, some 5⟩ []
    rfl ⟨6, none, none, some 5, some 5⟩ (by decide)

/-- Counterexample to C3 as stated: the selection holds node 10 (a minimal
root of the selection), the node 20 under the pointer is not selected, and
onDragStart produces the drag set 10 then 20 rather than 20 alone — the
unrelated existing selection is not ignored. -/
theorem dragStart_not_alone :
    20 ∉ ({ emptyTreeState with selectedNodes := [10] } : TreeState).selectedNodes ∧
    (onDragStart plNone { emptyTreeState with selectedNodes := [10] } (some 20)).dragging
      = some [10, 20] ∧
    some [10, 20] ≠ some ([20] : List NodeId) :=
  ⟨by decide, by decide, by decide⟩

/-- C3, amended: the drag set is the minimal roots of the current selection
(a selected node is kept exactly when its parent is absent or not itself
selected); when the node under the pointer is not selected it is appended to
that set, and when it is selected the drag set is exactly the minimal
roots. -/
theorem dragStart_minimal_roots_plus_item (pl : NodeId → Option NodeId)
    (t : TreeState) (i : NodeId) :
    (∀ n, n ∈ findAllCommonParents pl t.selectedNodes ↔
      (n ∈ t.selectedNodes ∧ ∀ p, pl n = some p → p ∉ t.selectedNodes)) ∧
    (i ∉ t.selectedNodes →
      (onDragStart pl t (some i)).dragging =
        some (findAllCommonParents pl t.selectedNodes ++ [i])) ∧
    (i ∈ t.selectedNodes →
      (onDragStart pl t (some i)).dragging =
        some (findAllCommonParents pl t.selectedNodes)) := by
  refine ⟨?_, ?_, ?_⟩
  · intro n
    unfold findAllCommonParents
    rw [List.mem_filter]
    constructor
    · rintro ⟨hmem, hp⟩
      refine ⟨hmem, ?_⟩
      intro p hpl hps
      rw [hpl] at hp
      simp only [Bool.not_eq_eq_eq_not, Bool.not_true, decide_eq_false_iff_not] at hp
      exact hp hps
    · rintro ⟨hmem, hp⟩
      refine ⟨hmem, ?_⟩
      cases hpl : pl n with
      | none => rfl
      | some p =>
        simp only [Bool.not_eq_eq_eq_not, Bool.not_true, decide_eq_false_iff_not]
        exact hp p hpl
  · intro hni
    unfold onDragStart
    simp only [if_neg hni]
  · intro hni
    unfold onDragStart
    simp only [if_pos hni]

/-- Witness for the amended drag-start theorem: dragging the unselected
node 20 while 10 is selected yields the minimal roots followed by 20. -/
theorem dragStart_minimal_roots_plus_item_witness :
    (onDragStart plNone { emptyTreeState with selectedNodes := [10] } (some 20)).dragging =
      some (findAllCommonParents plNone
        ({ emptyTreeState with selectedNodes := [10] } : TreeState).selectedNodes ++ [20]) :=
  (dragStart_minimal_roots_plus_item plNone
    { emptyTreeState with selectedNodes := [10] } 20).2.1 (by decide)

/-- Counterexample to C4 as stated: a batch whose single record gives node 2
the new parent 1, where container 1 has no View Entry and no creation in the
batch.  Reconciliation does not throw: it completes with an ok state in
which the entry for 2 was created but nothing was attached anywhere — the
record was silently skipped. -/
theorem reconcile_no_throw_on_missing_entry :
    vchildrenAt (handleNodeLinkedChanged cexKappa wTree0 [⟨2, none, none, some 1, none⟩]) 1
      = some [] ∧
    entryQ (handleNodeLinkedChanged cexKappa wTree0 [⟨2, none, none, some 1, none⟩]) 2
      = some true ∧
    vchildrenAt (handleNodeLinkedChanged cexKappa wTree0 [⟨2, none, none, some 1, none⟩]) 0
      = some [] :=
  ⟨by decide, by decide, by decide⟩

/-- C4, amended: reconciliation never throws as long as every record node
has a recognised kind (the only throwing path is the unknown-kind branch of
createHTMLElement), and a record whose new parent has no View Entry is
silently skipped: applying it leaves the state exactly unchanged. -/
theorem reconcile_silently_skips (κ : NodeId → NKind) :
    (∀ t rs, (∀ r ∈ rs, κ r.node ≠ NKind.other) →
      ∃ t2, handleNodeLinkedChanged κ t rs = Except.ok t2) ∧
    (∀ t (r : NodeRecord), r.node ∈ t.entries → r.oldParent = none →
      ∀ np, r.newParent = some np → np ∉ t.entries → applyRecord κ t r = t) := by
  constructor
  · intro t rs hk
    obtain ⟨t1, he⟩ := ensureHasHTML_ok κ rs t hk
    refine ⟨rs.foldl (applyRecord κ) t1, ?_⟩
    unfold handleNodeLinkedChanged
    rw [he]
  · intro t r hmem hop np hnp hnpe
    unfold applyRecord
    rw [if_pos hmem]
    unfold applyDetach
    rw [hop]
    dsimp only
    unfold applyAttach
    rw [hnp]
    dsimp only
    rw [if_neg (fun h => hnpe h.1)]

/-- Witness for reconcile_silently_skips at concrete inputs. -/
theorem reconcile_silently_skips_witness :
    (∃ t2, handleNodeLinkedChanged cexKappa wTree0 [⟨2, none, none, some 1, none⟩] =
      Except.ok t2) ∧
    applyRecord cexKappa { wTree0 with entries := [0, 2] } ⟨2, none, none, some 1, none⟩ =
      { wTree0 with entries := [0, 2] } :=
  ⟨(reconcile_silently_skips cexKappa).1 wTree0 [⟨2, none, none, some 1, none⟩] (by decide),
   (reconcile_silently_skips cexKappa).2 { wTree0 with entries := [0, 2] }
     ⟨2, none, none, some 1, none⟩ (by decide) rfl 1 rfl (by decide)⟩

/-- C5 evidence: evaluation of the initial walk at the failing input.  The
root container 0 has first child 2, a leaf whose next sibling is the
container 1.  Node 1 is reachable from the root, yet after the walk it has
no View Entry: the walk recursed into the first child, but the sibling
recursion is guarded by the container check, so the chain stopped at the
leaf 2 and never visited 1.  Nodes 0 and 2 were handled normally. -/
theorem addAllNodes_misses_sibling_after_leaf :
    LReach lgLeafSib 0 1 ∧
    entryQ (treeInit twoGroupKinds lgLeafSib 10 0) 1 = some false ∧
    entryQ (treeInit twoGroupKinds lgLeafSib 10 0) 0 = some true ∧
    entryQ (treeInit twoGroupKinds lgLeafSib 10 0) 2 = some true ∧
    vchildrenAt (treeInit twoGroupKinds lgLeafSib 10 0) 0 = some [2] :=
  ⟨LReach.sib 2 1 (LReach.child 0 2 LReach.base (by decide)) (by decide),
   by decide, by decide, by decide, by decide⟩

/-- C6: when the drop target resolves to a node, onDrop executes one single
transactional scope labelled move node; every move call in it moves a
dragged node (invoked on its parent) to the drop-target node itself when the
target is a container (with no sibling anchor), and to the parent of the
target with the target as anchor when it is a leaf; every dragged node that
has a parent is moved; and the drag set is cleared afterwards. -/
theorem onDrop_single_transaction (κ : NodeId → NKind) (pl : NodeId → Option NodeId)
    (t : TreeState) (d : List NodeId) (node : NodeId) (hd : t.dragging = some d) :
    ∃ tx, (onDrop κ pl t (some node)).1 = some tx ∧
      tx.label = ("move node") ∧
      (∀ mc ∈ tx.calls, mc.child ∈ d ∧ pl mc.child = some mc.receiver ∧
        mc.newParent = (if κ node = NKind.container then some node else pl node) ∧
        mc.target = (if κ node = NKind.container then none else some node)) ∧
      (∀ x ∈ d, ∀ p, pl x = some p →
        MoveCall.mk p x (if κ node = NKind.container then some node else pl node)
          (if κ node = NKind.container then none else some node) ∈ tx.calls) ∧
      (onDrop κ pl t (some node)).2.dragging = none := by
  have h1 : (onDrop κ pl t (some node)).1 = some (TxScope.mk ("move node")
      (d.filterMap (fun x => (pl x).map (fun p => MoveCall.mk p x
        (if κ node = NKind.container then some node else pl node)
        (if κ node = NKind.container then none else some node))))) := by
    simp only [onDrop, hd, Option.getD_some]
  refine ⟨_, h1, rfl, ?_, ?_, rfl⟩
  · intro mc hmc
    rcases List.mem_filterMap.mp hmc with ⟨x, hx, hmap⟩
    cases hpl : pl x with
    | none =>
      rw [hpl] at hmap
      exact absurd hmap (by simp)
    | some p =>
      rw [hpl] at hmap
      simp only [Option.map_some'] at hmap
      cases hmap
      exact ⟨hx, hpl, rfl, rfl⟩
  · intro x hx p hpl
    refine List.mem_filterMap.mpr ⟨x, hx, ?_⟩
    rw [hpl]
    rfl

/-- Witness for onDrop_single_transaction: leaf 2 is dragged (its parent is
1) and dropped on the container 1. -/
theorem onDrop_single_transaction_witness :
    ∃ tx, (onDrop twoGroupKinds plChain { emptyTreeState with dragging := some [2] }
        (some 1)).1 = some tx ∧
      tx.label = ("move node") ∧
      (∀ mc ∈ tx.calls, mc.child ∈ [2] ∧ plChain mc.child = some mc.receiver ∧
        mc.newParent = (if twoGroupKinds 1 = NKind.container then some 1 else plChain 1) ∧
        mc.target = (if twoGroupKinds 1 = NKind.container then none else some 1)) ∧
      (∀ x ∈ [2], ∀ p, plChain x = some p →
        MoveCall.mk p x (if twoGroupKinds 1 = NKind.container then some 1 else plChain 1)
          (if twoGroupKinds 1 = NKind.container then none else some 1) ∈ tx.calls) ∧
      (onDrop twoGroupKinds plChain { emptyTreeState with dragging := some [2] }
        (some 1)).2.dragging = none :=
  onDrop_single_transaction twoGroupKinds plChain
    { emptyTreeState with dragging := some [2] } [2] 1 rfl

lemma canDropLoop_run (pl : NodeId → Option NodeId) (D : List NodeId) :
    ∀ (as : List NodeId) (n : NodeId), AncChain pl n as →
      canDropLoop pl (some D) (as.length + 1) (pl n) =
        some (as.all (fun a => !decide (a ∈ D))) := by
  intro as
  induction as with
  | nil =>
    intro n hchain
    rw [show pl n = none from hchain]
    rfl
  | cons a as ih =>
    intro n hchain
    obtain ⟨h1, h2⟩ := (hchain : pl n = some a ∧ AncChain pl a as)
    rw [h1]
    show canDropLoop pl (some D) (as.length + 1 + 1) (some a) = _
    by_cases ha : a ∈ D
    · simp [canDropLoop, ha]
    · have hstep : canDropLoop pl (some D) (as.length + 1 + 1) (some a) =
          if a ∈ D then some false else canDropLoop pl (some D) (as.length + 1) (pl a) := rfl
      rw [hstep, if_neg ha, ih a h2]
      have hd2 : decide (a ∈ D) = false := decide_eq_false ha
      simp [List.all_cons, hd2]

/-- C7: with a drag set in place, a drop target is judged invalid (canDrop
returns false) exactly when the target itself is in the drag set or some
ancestor of the target is, and valid (canDrop returns true) exactly
otherwise; the fuel one more than the ancestor chain length always suffices,
so the walk terminates with a verdict. -/
theorem canDrop_iff_in_dragged_subtree (pl : NodeId → Option NodeId) (t : TreeState)
    (D : List NodeId) (hd : t.dragging = some D) (n : NodeId) (as : List NodeId)
    (hchain : AncChain pl n as) :
    (canDrop pl (as.length + 1) t (some n) = some false ↔ n ∈ D ∨ ∃ a ∈ as, a ∈ D) ∧
    (canDrop pl (as.length + 1) t (some n) = some true ↔ ¬(n ∈ D ∨ ∃ a ∈ as, a ∈ D)) := by
  have hrun := canDropLoop_run pl D as n hchain
  have hcd : canDrop pl (as.length + 1) t (some n) =
      some ((!decide (n ∈ D)) && as.all (fun a => !decide (a ∈ D))) := by
    unfold canDrop
    rw [hd]
    by_cases hn : n ∈ D
    · simp [hn]
    · have hd2 : decide (n ∈ D) = false := decide_eq_false hn
      simp only [Option.getD_some, if_neg hn, hrun, hd2, Bool.not_false, Bool.true_and]
  rw [hcd]
  by_cases hmem : n ∈ D ∨ ∃ a ∈ as, a ∈ D
  · have hfalse : ((!decide (n ∈ D)) && as.all (fun a => !decide (a ∈ D))) = false := by
      rcases hmem with h | ⟨a, ha, haD⟩
      · simp [h]
      · rw [Bool.and_eq_false_iff]
        right
        rw [Bool.eq_false_iff]
        intro hall
        have := List.all_eq_true.mp hall a ha
        simp [haD] at this
    rw [hfalse]
    simp [hmem]
  · have hmem2 := hmem
    push_neg at hmem2
    have htrue : ((!decide (n ∈ D)) && as.all (fun a => !decide (a ∈ D))) = true := by
      rw [Bool.and_eq_true]
      refine ⟨by simpa using hmem2.1, List.all_eq_true.mpr ?_⟩
      intro a ha
      simpa using hmem2.2 a ha
    rw [htrue]
    simp [hmem]

/-- Witness for canDrop_iff_in_dragged_subtree: node 1 is dragged; dropping
on its descendant 2 is rejected, dropping on the unrelated node 5 is
accepted. -/
theorem canDrop_iff_in_dragged_subtree_witness :
    canDrop plChain 3 { emptyTreeState with dragging := some [1] } (some 2) = some false ∧
    canDrop plChain 1 { emptyTreeState with dragging := some [1] } (some 5) = some true :=
  ⟨(canDrop_iff_in_dragged_subtree plChain { emptyTreeState with dragging := some [1] }
      [1] rfl 2 [1, 0] ⟨rfl, rfl, rfl⟩).1.mpr (Or.inr ⟨1, by decide, by decide⟩),
   (canDrop_iff_in_dragged_subtree plChain { emptyTreeState with dragging := some [1] }
      [1] rfl 5 [] rfl).2.mpr (by simp)⟩

/-- Counterexample to C8 as stated: a Cmd click (metaKey true, ctrlKey
false, no shift) on node 5 makes onClick issue select([5], additive false),
while the claim prescribes select([5], additive true) — the source consults
only ctrlKey, never metaKey. -/
theorem onClick_meta_not_additive :
    (onClick (fun _ _ => []) ⟨false, false, true⟩ emptyTreeState (some 5)).1 =
      some (SelectCall.select [5] false) ∧
    (claimedOnClick (fun _ _ => []) ⟨false, false, true⟩ emptyTreeState (some 5)).1 =
      some (SelectCall.select [5] true) ∧
    some (SelectCall.select [5] false) ≠ some (SelectCall.select [5] true) :=
  ⟨by decide, by decide, by decide⟩

/-- C8, amended: a plain click issues select([node], additive false); a
Ctrl click issues select([node], additive true), metaKey being ignored (a
Cmd click without Ctrl behaves as a plain click); a shift click with an
anchor issues select(nodesBetween(anchor, node), additive false); a shift
click without an anchor issues no selection call; in every case the clicked
node becomes the last-clicked anchor. -/
theorem onClick_semantics (between : NodeId → NodeId → List NodeId) (ev : ClickEvent)
    (t : TreeState) (n : NodeId) :
    (ev.shiftKey = false →
      onClick between ev t (some n) = (some (SelectCall.select [n] ev.ctrlKey), { t with lastClicked := some n })) ∧
    (ev.shiftKey = true → ∀ a, t.lastClicked = some a →
      onClick between ev t (some n) =
        (some (SelectCall.select (between a n) false), { t with lastClicked := some n })) ∧
    (ev.shiftKey = true → t.lastClicked = none →
      onClick between ev t (some n) = (none, { t with lastClicked := some n })) := by
  refine ⟨?_, ?_, ?_⟩
  · intro hs
    unfold onClick
    rw [hs]
    rfl
  · intro hs a ha
    unfold onClick
    rw [hs, ha]
    rfl
  · intro hs ha
    unfold onClick
    rw [hs, ha]
    rfl

/-- Witness for onClick_semantics: the three behaviours at concrete
inputs. -/
theorem onClick_semantics_witness :
    onClick (fun _ _ => [7, 8]) ⟨false, true, false⟩ emptyTreeState (some 5) =
      (some (SelectCall.select [5] true), { emptyTreeState with lastClicked := some 5 }) ∧
    onClick (fun _ _ => [7, 8]) ⟨true, false, false⟩
        { emptyTreeState with lastClicked := some 7 } (some 5) =
      (some (SelectCall.select [7, 8] false),
        { { emptyTreeState with lastClicked := some 7 } with lastClicked := some 5 }) ∧
    onClick (fun _ _ => [7, 8]) ⟨true, false, false⟩ emptyTreeState (some 5) =
      (none, { emptyTreeState with lastClicked := some 5 }) :=
  ⟨(onClick_semantics (fun _ _ => [7, 8]) ⟨false, true, false⟩ emptyTreeState 5).1 rfl,
   (onClick_semantics (fun _ _ => [7, 8]) ⟨true, false, false⟩
     { emptyTreeState with lastClicked := some 7 } 5).2.1 rfl 7 rfl,
   (onClick_semantics (fun _ _ => [7, 8]) ⟨true, false, false⟩ emptyTreeState 5).2.2 rfl rfl⟩

lemma expandGroup_pres (κ : NodeId → NKind) (t : TreeState) (p : NodeId) :
    (expandGroup κ t p).entries = t.entries ∧
    (expandGroup κ t p).scrolledTo = t.scrolledTo ∧
    (∀ x, x ≠ p → (expandGroup κ t p).expanded x = t.expanded x) ∧
    (κ p = NKind.container → (expandGroup κ t p).expanded p = true) := by
  unfold expandGroup
  by_cases h : κ p = NKind.container
  · rw [if_pos h]
    refine ⟨rfl, rfl, ?_, ?_⟩
    · intro x hx
      dsimp only
      rw [if_neg hx]
    · intro _
      dsimp only
      rw [if_pos rfl]
  · rw [if_neg h]
    exact ⟨rfl, rfl, fun x _ => rfl, fun hc => absurd hc h⟩

lemma scrollAncestors_run (κ : NodeId → NKind) (pl : NodeId → Option NodeId) :
    ∀ (as : List NodeId) (n : NodeId) (t : TreeState), AncChain pl n as →
      (∀ a ∈ as, a ∈ t.entries) →
      ∃ t2, scrollAncestors κ pl (as.length + 1) t (pl n) = some t2 ∧
        t2.entries = t.entries ∧
        t2.scrolledTo = t.scrolledTo ∧
        (∀ x ∈ as, κ x = NKind.container → t2.expanded x = true) ∧
        (∀ x, x ∉ as → t2.expanded x = t.expanded x) := by
  intro as
  induction as with
  | nil =>
    intro n t hchain _
    rw [show pl n = none from hchain]
    exact ⟨t, rfl, rfl, rfl, by simp, fun x _ => rfl⟩
  | cons a as ih =>
    intro n t hchain hmap
    obtain ⟨h1, h2⟩ := (hchain : pl n = some a ∧ AncChain pl a as)
    have ha : a ∈ t.entries := hmap a (List.mem_cons_self a as)
    obtain ⟨hE, hS, hOther, hSelf⟩ := expandGroup_pres κ t a
    have hmap2 : ∀ x ∈ as, x ∈ (expandGroup κ t a).entries := by
      rw [hE]
      exact fun x hx => hmap x (List.mem_cons_of_mem a hx)
    obtain ⟨t2, hrun, h2E, h2S, h2in, h2out⟩ := ih a (expandGroup κ t a) h2 hmap2
    refine ⟨t2, ?_, by rw [h2E, hE], by rw [h2S, hS], ?_, ?_⟩
    · rw [h1]
      simp only [List.length_cons]
      have hstep : scrollAncestors κ pl (as.length + 1 + 1) t (some a) =
          scrollAncestors κ pl (as.length + 1) (expandGroup κ t a) (pl a) := by
        show (if a ∈ t.entries
            then scrollAncestors κ pl (as.length + 1) (expandGroup κ t a) (pl a)
            else scrollAncestors κ pl (as.length + 1) t (some a)) = _
        rw [if_pos ha]
      rw [hstep, hrun]
    · intro x hx hcx
      rcases List.mem_cons.mp hx with hxa | hxs
      · subst hxa
        by_cases hxin : x ∈ as
        · exact h2in x hxin hcx
        · rw [h2out x hxin]
          exact hSelf hcx
      · exact h2in x hxs hcx
    · intro x hx
      have hxa : x ≠ a := fun h => hx (h ▸ List.mem_cons_self a as)
      have hxs : x ∉ as := fun h => hx (List.mem_cons_of_mem a h)
      rw [h2out x hxs, hOther x hxa]

lemma scrollAncestors_stuck (κ : NodeId → NKind) (pl : NodeId → Option NodeId) (b : NodeId) :
    ∀ (fuel : Nat) (t : TreeState), b ∉ t.entries →
      scrollAncestors κ pl fuel t (some b) = none := by
  intro fuel
  induction fuel with
  | zero =>
    intro t _
    rfl
  | succ fuel ih =>
    intro t hb
    show (if b ∈ t.entries
        then scrollAncestors κ pl fuel (expandGroup κ t b) (pl b)
        else scrollAncestors κ pl fuel t (some b)) = none
    rw [if_neg hb]
    exact ih t hb

/-- C10: the ancestor walk of scrollToNode advances only on ancestors that
have a View Entry.  When every ancestor of the first selected node has one,
the walk terminates (fuel one more than the chain length returns a state);
when some ancestor lacks one, the loop sticks at the first such ancestor and
the walk does not terminate (it is still running after every fuel bound). -/
theorem scroll_walk_termination (κ : NodeId → NKind) (pl : NodeId → Option NodeId) :
    (∀ (as : List NodeId) (n : NodeId) (t : TreeState), AncChain pl n as →
      (∀ a ∈ as, a ∈ t.entries) →
      ∃ t2, scrollAncestors κ pl (as.length + 1) t (pl n) = some t2) ∧
    (∀ (as : List NodeId) (n : NodeId) (t : TreeState), AncChain pl n as →
      (∃ a ∈ as, a ∉ t.entries) →
      ∀ fuel, scrollAncestors κ pl fuel t (pl n) = none) := by
  constructor
  · intro as n t hchain hmap
    obtain ⟨t2, hrun, _⟩ := scrollAncestors_run κ pl as n t hchain hmap
    exact ⟨t2, hrun⟩
  · intro as
    induction as with
    | nil =>
      rintro n t hchain ⟨a, ha, _⟩
      exact absurd ha (List.not_mem_nil a)
    | cons a as ih =>
      intro n t hchain hex fuel
      obtain ⟨h1, h2⟩ := (hchain : pl n = some a ∧ AncChain pl a as)
      rw [h1]
      by_cases ha : a ∈ t.entries
      · rcases hex with ⟨x, hx, hxe⟩
        have hxas : x ∈ as := by
          rcases List.mem_cons.mp hx with hxa | h
          · exact absurd (hxa ▸ ha) hxe
          · exact h
        cases fuel with
        | zero => rfl
        | succ fuel =>
          have hstep : scrollAncestors κ pl (fuel + 1) t (some a) =
              scrollAncestors κ pl fuel (expandGroup κ t a) (pl a) := by
            show (if a ∈ t.entries
                then scrollAncestors κ pl fuel (expandGroup κ t a) (pl a)
                else scrollAncestors κ pl fuel t (some a)) = _
            rw [if_pos ha]
          rw [hstep]
          refine ih a (expandGroup κ t a) h2 ⟨x, hxas, ?_⟩ fuel
          rw [(expandGroup_pres κ t a).1]
          exact hxe
      · exact scrollAncestors_stuck κ pl a fuel t ha

/-- Witness for scroll_walk_termination: with entries for both ancestors 1
and 0 of node 2 the walk terminates, and with the entry for ancestor 0
missing it never does. -/
theorem scroll_walk_termination_witness :
    (∃ t2, scrollAncestors twoGroupKinds plChain 3
      { emptyTreeState with entries := [0, 1, 2] } (plChain 2) = some t2) ∧
    scrollAncestors twoGroupKinds plChain 5
      { emptyTreeState with entries := [1, 2] } (plChain 2) = none :=
  ⟨(scroll_walk_termination twoGroupKinds plChain).1 [1, 0] 2
      { emptyTreeState with entries := [0, 1, 2] } ⟨rfl, rfl, rfl⟩ (by decide),
   (scroll_walk_termination twoGroupKinds plChain).2 [1, 0] 2
      { emptyTreeState with entries := [1, 2] } ⟨rfl, rfl, rfl⟩
      ⟨0, by decide, by decide⟩ 5⟩

/-- C9: applying a selection-change event whose first newly selected node
has all its ancestors mapped scrolls that node into view and expands every
ancestor container all the way up the chain (every ancestor container ends
expanded, whether or not it was collapsed, and no other node has its
expansion state touched): the walk does not stop at the first expansion. -/
theorem selection_expands_all_ancestors (κ : NodeId → NKind) (pl : NodeId → Option NodeId)
    (t : TreeState) (first : NodeId) (rest unselected : List NodeId) (as : List NodeId)
    (hchain : AncChain pl first as)
    (hmap : ∀ a ∈ as, a ∈ t.entries)
    (hfirst : first ∈ t.entries) :
    ∃ t2, handleSelectionChanged κ pl (as.length + 1) t (first :: rest) unselected = some t2 ∧
      t2.scrolledTo = some first ∧
      (∀ a ∈ as, κ a = NKind.container → t2.expanded a = true) ∧
      (∀ x, x ∉ as → t2.expanded x = t.expanded x) := by
  unfold handleSelectionChanged
  dsimp only
  unfold scrollToNode
  dsimp only [List.head?]
  obtain ⟨t4, hrun, hE, hS, hin, hout⟩ := scrollAncestors_run κ pl as first
    { t with
      selectedNodes := (first :: rest).foldl (fun l x => if x ∈ l then l else l ++ [x])
        (t.selectedNodes.filter (fun y => !decide (y ∈ unselected)))
      lastClicked := none }
    hchain hmap
  rw [hrun]
  dsimp only
  have hfirst4 : first ∈ t4.entries := by
    rw [hE]
    exact hfirst
  rw [if_pos hfirst4]
  refine ⟨{ t4 with scrolledTo := some first }, rfl, rfl, ?_, ?_⟩
  · intro a ha hca
    exact hin a ha hca
  · intro x hx
    exact hout x hx

/-- Witness for selection_expands_all_ancestors: leaf 2 under collapsed
containers 1 and 0 is selected; both containers end expanded and 2 is
scrolled into view. -/
theorem selection_expands_all_ancestors_witness :
    ∃ t2, handleSelectionChanged twoGroupKinds plChain 3
        { emptyTreeState with entries := [0, 1, 2], expanded := fun _ => false }
        [2] [] = some t2 ∧
      t2.scrolledTo = some 2 ∧
      (∀ a ∈ [1, 0], twoGroupKinds a = NKind.container → t2.expanded a = true) ∧
      (∀ x, x ∉ [1, 0] →
        t2.expanded x =
          ({ emptyTreeState with entries := [0, 1, 2], expanded := fun _ => false }
            : TreeState).expanded x) :=
  selection_expands_all_ancestors twoGroupKinds plChain
    { emptyTreeState with entries := [0, 1, 2], expanded := fun _ => false }
    2 [] [] [1, 0] ⟨rfl, rfl, rfl⟩ (by decide) (by decide)
